import Mathlib

/-!
Verification of the vectorbt backtesting scripts.

The file shallowly embeds, over exact rationals (reals for CAGR), the
computations the scripts perform themselves (CAGR, the drawdown series,
the RSI entry/exit masks, the dual-momentum target-weight table, the
buy-and-hold size table), and models the engine pieces the repository
only calls — `vbt.Portfolio`, `ta.exrem`, the walk-forward optimizer —
from the specification's component design (sections 4.1 to 4.5).
-/

namespace BT

/-! ### RSI accumulation masks (niftybees_rsi_accumulation_backtest.py) -/

/-- `RSI_BUY_THRESHOLD = 68` (buy if weekly RSI below this). -/
def RSI_BUY_THRESHOLD : ℚ := 68

/-- `RSI_EXIT_THRESHOLD = 70` (exit all if weekly RSI above this). -/
def RSI_EXIT_THRESHOLD : ℚ := 70

/-- `rsi_valid = friday_315 & rsi_mapped.notna()`: the bar is a Friday
3:15 PM bar and the mapped weekly RSI is defined (`none` models NaN). -/
def rsi_valid (friday315 : Bool) (rsi : Option ℚ) : Bool :=
  friday315 && rsi.isSome

/-- A pandas comparison `rsi < c`: false when the value is NaN. -/
def rsiLt (rsi : Option ℚ) (c : ℚ) : Bool :=
  match rsi with
  | some r => decide (r < c)
  | none => false

/-- A pandas comparison `rsi > c`: false when the value is NaN. -/
def rsiGt (rsi : Option ℚ) (c : ℚ) : Bool :=
  match rsi with
  | some r => decide (c < r)
  | none => false

/-- `buy_mask = rsi_valid & (rsi_mapped < RSI_BUY_THRESHOLD)`. -/
def buy_mask (friday315 : Bool) (rsi : Option ℚ) : Bool :=
  rsi_valid friday315 rsi && rsiLt rsi RSI_BUY_THRESHOLD

/-- `exit_mask = rsi_valid & (rsi_mapped > RSI_EXIT_THRESHOLD)`. -/
def exit_mask (friday315 : Bool) (rsi : Option ℚ) : Bool :=
  rsi_valid friday315 rsi && rsiGt rsi RSI_EXIT_THRESHOLD

/-! ### Drawdown series (buy_hold_75_25_backtest.py, lines 195-196) -/

/-- Tail of the cumulative maximum of a list, seeded with the running
peak `m` (`running_max = equity.cummax()`). -/
def cummaxGo (m : ℚ) : List ℚ → List ℚ
  | [] => []
  | x :: xs => max m x :: cummaxGo (max m x) xs

/-- `running_max = equity.cummax()`. -/
def cummax : List ℚ → List ℚ
  | [] => []
  | x :: xs => x :: cummaxGo x xs

/-- `drawdown = equity / running_max - 1`. -/
def drawdown (eq : List ℚ) : List ℚ :=
  List.zipWith (fun e m => e / m - 1) eq (cummax eq)

/-- Max drawdown: the minimum over all bars of the drawdown series
(section 4.4 of the spec); 0 by convention on an empty curve. -/
def maxDrawdown (eq : List ℚ) : ℚ :=
  match drawdown eq with
  | [] => 0
  | d :: ds => ds.foldl min d

lemma foldl_min_le_init (ds : List ℚ) : ∀ d : ℚ, ds.foldl min d ≤ d := by
  induction ds with
  | nil => intro d; exact le_refl d
  | cons x xs ih =>
    intro d
    calc (x :: xs).foldl min d = xs.foldl min (min d x) := rfl
    _ ≤ min d x := ih (min d x)
    _ ≤ d := min_le_left d x

lemma foldl_min_le_mem (ds : List ℚ) : ∀ d x : ℚ, x ∈ ds → ds.foldl min d ≤ x := by
  induction ds with
  | nil => intro d x hx; cases hx
  | cons y ys ih =>
    intro d x hx
    rcases List.mem_cons.mp hx with h | h
    · subst h
      calc (x :: ys).foldl min d = ys.foldl min (min d x) := rfl
      _ ≤ min d x := foldl_min_le_init ys (min d x)
      _ ≤ x := min_le_right d x
    · exact ih (min d y) x h

lemma foldl_min_mem (ds : List ℚ) : ∀ d : ℚ, ds.foldl min d = d ∨ ds.foldl min d ∈ ds := by
  induction ds with
  | nil => intro d; exact Or.inl rfl
  | cons x xs ih =>
    intro d
    rcases ih (min d x) with h | h
    · rcases min_cases d x with ⟨h1, _⟩ | ⟨h1, _⟩
      · exact Or.inl (by simpa [h1] using h)
      · refine Or.inr (List.mem_cons.mpr (Or.inl ?_))
        simpa [h1] using h
    · exact Or.inr (List.mem_cons.mpr (Or.inr h))

/-- All entries of a drawdown tail are nonpositive as long as the running
peak stays positive. -/
lemma drawdown_tail_nonpos (es : List ℚ) :
    ∀ m : ℚ, 0 < m →
      ∀ d ∈ List.zipWith (fun e mm => e / mm - 1) es (cummaxGo m es), d ≤ 0 := by
  induction es with
  | nil => intro m _ d hd; simp [cummaxGo] at hd
  | cons e es ih =>
    intro m hm d hd
    have hmax : (0 : ℚ) < max m e := lt_of_lt_of_le hm (le_max_left m e)
    simp only [cummaxGo, List.zipWith_cons_cons, List.mem_cons] at hd
    rcases hd with h | h
    · subst h
      have he : e ≤ max m e := le_max_right m e
      have : e / max m e ≤ 1 := (div_le_one hmax).mpr he
      linarith
    · exact ih (max m e) hmax d h

/-- C5: the max drawdown of an equity curve is the minimum over all bars
of `equity_t / running_max_t - 1`, it is nonpositive for every equity
curve starting from a positive value, and on `[100, 120, 90, 150]` it is
exactly `-25%`. -/
theorem maxDrawdown_spec :
    (∀ (e : ℚ) (es : List ℚ), 0 < e →
      (maxDrawdown (e :: es) ∈ drawdown (e :: es) ∧
        ∀ d ∈ drawdown (e :: es), maxDrawdown (e :: es) ≤ d) ∧
      maxDrawdown (e :: es) ≤ 0) ∧
    maxDrawdown [100, 120, 90, 150] = -(1/4) := by
  constructor
  · intro e es he
    have hdd : drawdown (e :: es) =
        (e / e - 1) :: List.zipWith (fun x mm => x / mm - 1) es (cummaxGo e es) := by
      simp [drawdown, cummax]
    have hhead : e / e - 1 = 0 := by
      rw [div_self (ne_of_gt he)]; ring
    constructor
    · constructor
      · rw [hdd]
        simp only [maxDrawdown, hdd]
        rcases foldl_min_mem (List.zipWith (fun x mm => x / mm - 1) es (cummaxGo e es))
            (e / e - 1) with h | h
        · rw [h]; exact List.mem_cons_self _ _
        · exact List.mem_cons.mpr (Or.inr h)
      · intro d hd
        simp only [maxDrawdown, hdd]
        rw [hdd] at hd
        rcases List.mem_cons.mp hd with h | h
        · subst h; exact foldl_min_le_init _ _
        · exact foldl_min_le_mem _ _ _ h
    · have h1 : maxDrawdown (e :: es) ≤ e / e - 1 := by
        simp only [maxDrawdown, hdd]
        exact foldl_min_le_init _ _
      rw [hhead] at h1
      exact h1
  · norm_num [maxDrawdown, drawdown, cummax, cummaxGo, min_def, max_def]

/-- C5 witness: the general bound applied to the concrete curve. -/
theorem maxDrawdown_spec_witness :
    maxDrawdown ((100 : ℚ) :: [120, 90, 150]) ≤ 0 :=
  (maxDrawdown_spec.1 100 [120, 90, 150] (by norm_num)).2

/-- C8: the RSI-accumulation buy and exit masks are never simultaneously
true — a buy needs a defined weekly RSI below 68, an exit needs it above
70. -/
theorem buy_exit_mutually_exclusive (friday315 : Bool) (rsi : Option ℚ) :
    (buy_mask friday315 rsi && exit_mask friday315 rsi) = false := by
  cases rsi with
  | none => simp [buy_mask, exit_mask, rsi_valid]
  | some r =>
    by_cases h : r < RSI_BUY_THRESHOLD
    · have h2 : ¬ RSI_EXIT_THRESHOLD < r := by
        simp only [RSI_BUY_THRESHOLD, RSI_EXIT_THRESHOLD] at h ⊢
        linarith
      simp [buy_mask, exit_mask, rsi_valid, rsiLt, rsiGt, h, h2]
    · simp [buy_mask, exit_mask, rsi_valid, rsiLt, rsiGt, h]

/-! ### Signal Normalizer (modelled from the spec, section 4.1) -/

/-- The two-state flag carried by the normalizer scan. -/
inductive PosFlag
  | Flat
  | Held

/-- Modelled from the spec: the Signal Normalizer of section 4.1 —
`ta.exrem` itself is not part of the repository source.  A single
left-to-right scan over paired candidate-entry/candidate-exit flags
carrying a {FLAT, OPEN} flag: while flat only a candidate entry is
accepted (and opens the simulated position), while open only a candidate
exit is accepted (and closes it); every other candidate is dropped.  A
simultaneous entry and exit candidate resolves in favour of the flag the
current state can accept. -/
def normalize : PosFlag → List (Bool × Bool) → List (Bool × Bool)
  | _, [] => []
  | PosFlag.Flat, (e, _) :: rest =>
      if e then (true, false) :: normalize PosFlag.Held rest
      else (false, false) :: normalize PosFlag.Flat rest
  | PosFlag.Held, (_, x) :: rest =>
      if x then (false, true) :: normalize PosFlag.Flat rest
      else (false, false) :: normalize PosFlag.Held rest

/-- The chronological event stream of a pair of boolean series: `true`
is an entry event, `false` an exit event. -/
def events : List (Bool × Bool) → List Bool
  | [] => []
  | (e, x) :: rest =>
      if e then true :: events rest
      else if x then false :: events rest
      else events rest

/-- `altFrom expected l` holds when `l` strictly alternates and its first
element is `expected`. -/
def altFrom : Bool → List Bool → Bool
  | _, [] => true
  | expected, b :: rest => (b == expected) && altFrom (!expected) rest

/-- The event type the scan will accept next in a given state. -/
def expectedEvent : PosFlag → Bool
  | PosFlag.Flat => true
  | PosFlag.Held => false

lemma normalize_alternates_aux (l : List (Bool × Bool)) :
    ∀ st, altFrom (expectedEvent st) (events (normalize st l)) = true := by
  induction l with
  | nil => intro st; cases st <;> rfl
  | cons p rest ih =>
    intro st
    obtain ⟨e, x⟩ := p
    have ihF := ih PosFlag.Flat
    have ihH := ih PosFlag.Held
    simp only [expectedEvent] at ihF ihH
    cases st <;> cases e <;> cases x <;>
      simp [normalize, events, altFrom, expectedEvent, ihF, ihH]

lemma normalize_length (l : List (Bool × Bool)) :
    ∀ st, (normalize st l).length = l.length := by
  induction l with
  | nil => intro st; cases st <;> rfl
  | cons p rest ih =>
    intro st
    obtain ⟨e, x⟩ := p
    cases st <;> cases e <;> cases x <;> simp [normalize, ih PosFlag.Flat, ih PosFlag.Held]

/-- C4: the normalizer keeps the series length, and the combined output
event stream strictly alternates starting with an entry — so it never
contains two consecutive same-type events, an entry is accepted only
while flat and an exit only while open. -/
theorem normalizer_alternation (l : List (Bool × Bool)) :
    (normalize PosFlag.Flat l).length = l.length ∧
    altFrom true (events (normalize PosFlag.Flat l)) = true :=
  ⟨normalize_length l PosFlag.Flat, normalize_alternates_aux l PosFlag.Flat⟩

/-! ### CAGR (calc_cagr, identical in buy_hold_75_25_backtest.py and
niftybees_rsi_accumulation_backtest.py) -/

/-- `calc_cagr(start_val, end_val, years)`: 0 whenever one of the three
arguments is nonpositive, else `(end_val / start_val) ** (1 / years) - 1`. -/
noncomputable def calc_cagr (start_val end_val years : ℝ) : ℝ :=
  if start_val ≤ 0 ∨ end_val ≤ 0 ∨ years ≤ 0 then 0
  else (end_val / start_val) ^ (1 / years) - 1

/-- C6 counterexample: at growth rate g = −1 the round-trip fails — the
end value `v0 * (1 + g) ^ y` collapses to 0, the nonpositive-input guard
fires, and `calc_cagr` returns 0, not −1. -/
theorem cagr_roundtrip_counterexample :
    calc_cagr 1 (1 * (1 + (-1 : ℝ)) ^ (1 : ℝ)) 1 = 0 ∧ (0 : ℝ) ≠ -1 := by
  constructor
  · have h : (1 + (-1 : ℝ)) = 0 := by norm_num
    rw [h, Real.zero_rpow one_ne_zero]
    simp [calc_cagr]
  · norm_num

/-- C6 (amended): the CAGR round-trip holds for every start value
`v0 > 0`, years `y > 0` and growth rate `g > -1`, and `calc_cagr` is 0
(raising nothing) on every nonpositive input triple. -/
theorem cagr_spec :
    (∀ v0 g y : ℝ, 0 < v0 → 0 < y → -1 < g →
      calc_cagr v0 (v0 * (1 + g) ^ y) y = g) ∧
    (∀ a b c : ℝ, a ≤ 0 ∨ b ≤ 0 ∨ c ≤ 0 → calc_cagr a b c = 0) := by
  constructor
  · intro v0 g y hv hy hg
    have hbase : (0 : ℝ) < 1 + g := by linarith
    have hv1 : 0 < v0 * (1 + g) ^ y := mul_pos hv (Real.rpow_pos_of_pos hbase y)
    rw [calc_cagr, if_neg (by push_neg; exact ⟨hv, hv1, hy⟩)]
    have hdiv : v0 * (1 + g) ^ y / v0 = (1 + g) ^ y := by
      field_simp
    rw [hdiv, ← Real.rpow_mul hbase.le, mul_one_div_cancel (ne_of_gt hy), Real.rpow_one]
    ring
  · intro a b c h
    rw [calc_cagr, if_pos h]

/-- C6 witness: the round-trip at `v0 = 1, g = 1, y = 1`, and the guard
at a zero start value. -/
theorem cagr_spec_witness :
    calc_cagr 1 (1 * (1 + 1) ^ (1 : ℝ)) 1 = 1 ∧ calc_cagr 0 1 1 = 0 :=
  ⟨cagr_spec.1 1 1 1 (by norm_num) (by norm_num) (by norm_num),
    cagr_spec.2 0 1 1 (Or.inl le_rfl)⟩

/-! ### Dual-momentum target weights (dual_momentum_backtest.py,
lines 84-102) -/

/-- The two rotation symbols. -/
inductive Sym
  | NIFTYBEES
  | GOLDBEES

/-- `ALLOCATION = 0.75` (75% of the portfolio per rebalance). -/
def ALLOCATION : ℚ := 3/4

/-- pandas `Series.ffill` over the object-dtype allocation series,
carrying the last defined symbol (`none` models a missing entry). -/
def ffillGo (last : Option Sym) : List (Option Sym) → List (Option Sym)
  | [] => []
  | none :: rest => last :: ffillGo last rest
  | some s :: rest => some s :: ffillGo (some s) rest

/-- `alloc_daily = alloc_daily.ffill()` followed by
`alloc_daily.loc[alloc_daily.first_valid_index():]`.  When the filled
series has a first valid entry the slice starts there (the leading NaN
run is dropped); when it has none, `first_valid_index()` is `None` and
`.loc[None:]` keeps the whole all-NaN series. -/
def alloc_daily (raw : List (Option Sym)) : List (Option Sym) :=
  if ((ffillGo none raw).all fun o => o.isNone) = true then ffillGo none raw
  else (ffillGo none raw).dropWhile fun o => o.isNone

/-- One row of `np.where(alloc_daily == "NIFTYBEES", ALLOCATION, 0.0)`:
a NaN row compares unequal to both symbols, as in numpy. -/
def weightN (a : Option Sym) : ℚ :=
  match a with
  | some Sym.NIFTYBEES => ALLOCATION
  | _ => 0

/-- One row of `np.where(alloc_daily == "GOLDBEES", ALLOCATION, 0.0)`. -/
def weightG (a : Option Sym) : ℚ :=
  match a with
  | some Sym.GOLDBEES => ALLOCATION
  | _ => 0

/-- The daily target-weight table `weights`, one `(NIFTYBEES, GOLDBEES)`
pair per timestamp of the allocation index. -/
def weightsTable (raw : List (Option Sym)) : List (ℚ × ℚ) :=
  (alloc_daily raw).map fun a => (weightN a, weightG a)

/-- After forward-filling from a defined symbol every entry is defined. -/
lemma ffillGo_some_isSome (l : List (Option Sym)) :
    ∀ s : Sym, ∀ a ∈ ffillGo (some s) l, a.isSome = true := by
  induction l with
  | nil => intro s a ha; cases ha
  | cons o rest ih =>
    intro s a ha
    cases o with
    | none =>
      rcases List.mem_cons.mp ha with h | h
      · subst h; rfl
      · exact ih s a h
    | some s2 =>
      rcases List.mem_cons.mp ha with h | h
      · subst h; rfl
      · exact ih s2 a h

/-- A forward-filled series that is entirely NaN can only come from an
entirely NaN input. -/
lemma ffillGo_all_none (l : List (Option Sym)) :
    ∀ last, ((ffillGo last l).all fun o => o.isNone) = true → ∀ x ∈ l, x = none := by
  induction l with
  | nil => intro last _ x hx; cases hx
  | cons o rest ih =>
    intro last hall x hx
    cases o with
    | none =>
      rw [ffillGo, List.all_cons, Bool.and_eq_true] at hall
      rcases List.mem_cons.mp hx with h | h
      · exact h
      · exact ih last hall.2 x h
    | some s =>
      rw [ffillGo, List.all_cons] at hall
      simp at hall

/-- Every entry after dropping the leading NaN run of a forward-filled
series is a defined symbol. -/
lemma ffill_dropWhile_isSome (raw : List (Option Sym)) :
    ∀ a ∈ (ffillGo none raw).dropWhile (fun o => o.isNone), a.isSome = true := by
  induction raw with
  | nil => intro a ha; cases ha
  | cons o rest ih =>
    intro a ha
    cases o with
    | none =>
      apply ih
      simpa [ffillGo, List.dropWhile] using ha
    | some s =>
      simp only [ffillGo, List.dropWhile, Option.isSome_some] at ha
      rcases List.mem_cons.mp ha with h | h
      · subst h; rfl
      · exact ffillGo_some_isSome rest s a h

/-- When at least one winner was assigned, every entry of the truncated,
forward-filled allocation series is a defined symbol. -/
lemma alloc_daily_isSome (raw : List (Option Sym)) (hsome : ∃ s : Sym, some s ∈ raw) :
    ∀ a ∈ alloc_daily raw, a.isSome = true := by
  rw [alloc_daily]
  by_cases hall : ((ffillGo none raw).all fun o => o.isNone) = true
  · exfalso
    obtain ⟨s, hs⟩ := hsome
    exact Option.some_ne_none s (ffillGo_all_none raw none hall (some s) hs)
  · rw [if_neg hall]
    exact ffill_dropWhile_isSome raw

/-- C9 counterexample: when no quarter ever produced a winner the
allocation series is entirely NaN, `first_valid_index()` is `None`, the
`.loc[None:]` slice keeps every row, and each `np.where` row of the
weight table is `(0.0, 0.0)` — its sum is 0, not 0.75, and neither
symbol receives the allocation. -/
theorem weights_rows_counterexample :
    ((0 : ℚ), (0 : ℚ)) ∈ weightsTable [none] ∧
      ¬ (((0 : ℚ), (0 : ℚ)).1 + ((0 : ℚ), (0 : ℚ)).2 = ALLOCATION) := by
  constructor
  · simp [weightsTable, alloc_daily, ffillGo, weightN, weightG]
  · norm_num [ALLOCATION]

/-- C9 (amended): provided the allocation series contains at least one
defined winner, every row of the daily target-weight table gives `0.75`
to exactly one of the two symbols and `0` to the other; the two weights
are never both nonzero and always sum to `0.75`. -/
theorem weights_rows (raw : List (Option Sym)) (hsome : ∃ s : Sym, some s ∈ raw)
    (row : ℚ × ℚ) (hrow : row ∈ weightsTable raw) :
    row.1 + row.2 = ALLOCATION ∧
    ((row.1 = ALLOCATION ∧ row.2 = 0) ∨ (row.1 = 0 ∧ row.2 = ALLOCATION)) := by
  obtain ⟨a, ha, hmap⟩ := List.mem_map.mp hrow
  have hsome2 := alloc_daily_isSome raw hsome a ha
  obtain ⟨s, hs⟩ := Option.isSome_iff_exists.mp hsome2
  subst hs
  subst hmap
  cases s <;> norm_num [weightN, weightG, ALLOCATION]

/-- C9 witness: a short raw allocation series ending in a GOLDBEES row. -/
theorem weights_rows_witness :
    ((0 : ℚ), (3/4 : ℚ)).1 + ((0 : ℚ), (3/4 : ℚ)).2 = ALLOCATION ∧
    ((((0 : ℚ), (3/4 : ℚ)).1 = ALLOCATION ∧ ((0 : ℚ), (3/4 : ℚ)).2 = 0) ∨
      (((0 : ℚ), (3/4 : ℚ)).1 = 0 ∧ ((0 : ℚ), (3/4 : ℚ)).2 = ALLOCATION)) :=
  weights_rows [none, some Sym.NIFTYBEES, none, some Sym.GOLDBEES]
    ⟨Sym.NIFTYBEES, by simp⟩ (0, 3/4)
    (by simp [weightsTable, alloc_daily, ffillGo, List.dropWhile, weightN, weightG, ALLOCATION])

/-! ### Ledger / Fill Simulator, single instrument (modelled from the
spec, sections 4.2 and 4.3) — `vbt.Portfolio.from_signals` is not part
of the repository source. -/

/-- Fee model: `fee = proportional_fee * |quantity * price| + fixed_fee`,
the fixed fee charged once per nonzero order (section 4.3, step 3). -/
structure FeeCfg where
  propFee : ℚ
  fixedFee : ℚ
deriving DecidableEq

/-- Run configuration shared by the ledgers: fee model, minimum order
size, size granularity (lot), and signal accumulation. -/
structure SCfg where
  fee : FeeCfg
  minSize : ℚ
  lot : ℚ
  accumulate : Bool
deriving DecidableEq

/-- Sizing intent of an order (section 4.2): percent of equity, fixed
currency value, or a literal quantity. -/
inductive SizeSpec
  | percent (frac : ℚ)
  | value (amount : ℚ)
  | quantity (q : ℚ)
deriving DecidableEq

/-- One input bar of a signal-driven run. -/
structure SBar where
  price : ℚ
  entry : Bool
  exitFlag : Bool
  size : SizeSpec
deriving DecidableEq

/-- Ledger state: cash balance and (long-only) position quantity. -/
structure SState where
  cash : ℚ
  pos : ℚ
deriving DecidableEq

/-- One output record per bar: cash, position, mark-to-market equity,
and whether a SizingError warning was flagged on this bar. -/
structure SRec where
  cash : ℚ
  pos : ℚ
  equity : ℚ
  warned : Bool
deriving DecidableEq

/-- Fee of an order (section 4.3, step 3). -/
def tradeFee (fc : FeeCfg) (q p : ℚ) : ℚ :=
  fc.propFee * |q * p| + (if q = 0 then 0 else fc.fixedFee)

/-- Round a quantity to the nearest lot (`size_granularity`). -/
def roundLot (lot q : ℚ) : ℚ := (round (q / lot) : ℚ) * lot

/-- Round a quantity down to a whole number of lots. -/
def floorLot (lot q : ℚ) : ℚ := (⌊q / lot⌋ : ℚ) * lot

/-- The quantity a sizing intent asks for (section 4.2). -/
def desiredQty (spec : SizeSpec) (st : SState) (p : ℚ) : ℚ :=
  match spec with
  | SizeSpec.percent f => (st.cash + st.pos * p) * f / p
  | SizeSpec.value a => a / p
  | SizeSpec.quantity q => q

/-- The largest buy quantity whose notional plus fees fits in the
available cash. -/
def maxAffordable (fc : FeeCfg) (cash p : ℚ) : ℚ :=
  (cash - fc.fixedFee) / (p * (1 + fc.propFee))

/-- Execute a buy of quantity `q`, or skip it with a SizingError warning
(`true` in the result) when `q` is below `min_size` (section 4.2). -/
def sexec (cfg : SCfg) (st : SState) (p q : ℚ) : SState × Bool :=
  if q < cfg.minSize then (st, true)
  else ({ cash := st.cash - (q * p + tradeFee cfg.fee q p), pos := st.pos + q }, false)

/-- Modelled from the spec: the long-only buy path of the Order Sizer
(section 4.2).  The desired quantity is rounded to the lot; an order
below `min_size` is skipped with a SizingError warning; an order whose
cost would exceed the cash balance is reduced to the largest affordable
whole number of lots (and, in `sexec`, skipped with a warning if that is
still below `min_size`). -/
def sbuy (cfg : SCfg) (st : SState) (p : ℚ) (spec : SizeSpec) : SState × Bool :=
  if roundLot cfg.lot (desiredQty spec st p) < cfg.minSize then (st, true)
  else if st.cash < roundLot cfg.lot (desiredQty spec st p) * p +
      tradeFee cfg.fee (roundLot cfg.lot (desiredQty spec st p)) p
    then sexec cfg st p (floorLot cfg.lot (maxAffordable cfg.fee st.cash p))
    else sexec cfg st p (roundLot cfg.lot (desiredQty spec st p))

/-- Modelled from the spec: the exit path — sell the whole position
(section 4.2's infinite-value sentinel).  A sale whose fees would
overdraw the cash balance is skipped with a SizingError warning, per the
never-negative-cash rule of section 4.2. -/
def ssell (cfg : SCfg) (st : SState) (p : ℚ) : SState × Bool :=
  let q := st.pos
  let proceeds := q * p - tradeFee cfg.fee q p
  if st.cash + proceeds < 0 then (st, true)
  else ({ cash := st.cash + proceeds, pos := 0 }, false)

/-- Modelled from the spec: one bar of the signal-driven Ledger
(section 4.3): the exit is processed before the entry, and an entry is
taken only when flat unless the run accumulates. -/
def sstep (cfg : SCfg) (st : SState) (bar : SBar) : SState × Bool :=
  let s1 := if bar.exitFlag then ssell cfg st bar.price else (st, false)
  let s2 := if bar.entry && (cfg.accumulate || decide (s1.1.pos = 0))
    then sbuy cfg s1.1 bar.price bar.size
    else (s1.1, false)
  (s2.1, s1.2 || s2.2)

/-- Modelled from the spec: the bar-by-bar signal-driven run, recording
cash, position and mark-to-market equity `cash + pos * close` at every
bar (section 4.3, step 6). -/
def srun (cfg : SCfg) (st : SState) : List SBar → List SRec
  | [] => []
  | bar :: rest =>
    let s := sstep cfg st bar
    { cash := s.1.cash, pos := s.1.pos,
      equity := s.1.cash + s.1.pos * bar.price, warned := s.2 }
      :: srun cfg s.1 rest

/-- Total return of a run: final recorded equity over initial cash,
minus one; 0 for an empty run. -/
def totalReturn (cfg : SCfg) (c0 : ℚ) (bars : List SBar) : ℚ :=
  match (srun cfg { cash := c0, pos := 0 } bars).getLast? with
  | some r => r.equity / c0 - 1
  | none => 0

lemma floorLot_le (lot x : ℚ) (hlot : 0 < lot) : floorLot lot x ≤ x := by
  rw [floorLot]
  calc (⌊x / lot⌋ : ℚ) * lot ≤ (x / lot) * lot :=
        mul_le_mul_of_nonneg_right (Int.floor_le _) hlot.le
  _ = x := div_mul_cancel₀ x hlot.ne'

lemma sexec_invariant (cfg : SCfg) (st : SState) (p q : ℚ)
    (hmin : 0 < cfg.minSize)
    (hcost : cfg.minSize ≤ q → q * p + tradeFee cfg.fee q p ≤ st.cash)
    (hc : 0 ≤ st.cash) (hq : 0 ≤ st.pos) :
    0 ≤ (sexec cfg st p q).1.cash ∧ 0 ≤ (sexec cfg st p q).1.pos := by
  rw [sexec]
  split_ifs with h
  · exact ⟨hc, hq⟩
  · have hge := not_lt.mp h
    have h1 := hcost hge
    have h2 : 0 < q := lt_of_lt_of_le hmin hge
    exact ⟨by simp only []; linarith, by simp only []; linarith⟩

lemma sbuy_invariant (cfg : SCfg) (st : SState) (p : ℚ) (spec : SizeSpec)
    (hprop : 0 ≤ cfg.fee.propFee) (_hfix : 0 ≤ cfg.fee.fixedFee)
    (hmin : 0 < cfg.minSize) (hlot : 0 < cfg.lot) (hp : 0 < p)
    (hc : 0 ≤ st.cash) (hq : 0 ≤ st.pos) :
    0 ≤ (sbuy cfg st p spec).1.cash ∧ 0 ≤ (sbuy cfg st p spec).1.pos := by
  rw [sbuy]
  split_ifs with h1 h2
  · exact ⟨hc, hq⟩
  · -- cost of the rounded quantity exceeds cash: clipped to affordable lots
    apply sexec_invariant cfg st p _ hmin _ hc hq
    intro hge
    set q := floorLot cfg.lot (maxAffordable cfg.fee st.cash p) with hqdef
    have hq0 : 0 < q := lt_of_lt_of_le hmin hge
    have hle : q ≤ maxAffordable cfg.fee st.cash p := floorLot_le _ _ hlot
    have hpf : 0 < p * (1 + cfg.fee.propFee) := by positivity
    have h5 : q * (p * (1 + cfg.fee.propFee)) ≤ st.cash - cfg.fee.fixedFee := by
      rw [maxAffordable] at hle
      exact (le_div_iff₀ hpf).mp hle
    have habs : |q * p| = q * p := abs_of_pos (mul_pos hq0 hp)
    have hfee : tradeFee cfg.fee q p = cfg.fee.propFee * (q * p) + cfg.fee.fixedFee := by
      rw [tradeFee, habs, if_neg hq0.ne']
    have hexp : q * (p * (1 + cfg.fee.propFee)) = q * p + cfg.fee.propFee * (q * p) := by
      ring
    rw [hfee]
    rw [hexp] at h5
    linarith
  · -- the rounded quantity is affordable: executed as is
    apply sexec_invariant cfg st p _ hmin _ hc hq
    intro _
    exact not_lt.mp h2

lemma ssell_invariant (cfg : SCfg) (st : SState) (p : ℚ)
    (hc : 0 ≤ st.cash) (hq : 0 ≤ st.pos) :
    0 ≤ (ssell cfg st p).1.cash ∧ 0 ≤ (ssell cfg st p).1.pos := by
  rw [ssell]
  split_ifs with h
  · exact ⟨hc, hq⟩
  · exact ⟨not_lt.mp h, le_refl 0⟩

lemma sstep_invariant (cfg : SCfg) (st : SState) (bar : SBar)
    (hprop : 0 ≤ cfg.fee.propFee) (hfix : 0 ≤ cfg.fee.fixedFee)
    (hmin : 0 < cfg.minSize) (hlot : 0 < cfg.lot) (hp : 0 < bar.price)
    (hc : 0 ≤ st.cash) (hq : 0 ≤ st.pos) :
    0 ≤ (sstep cfg st bar).1.cash ∧ 0 ≤ (sstep cfg st bar).1.pos := by
  rw [sstep]
  simp only []
  split_ifs with hx he
  · obtain ⟨h1, h2⟩ := ssell_invariant cfg st bar.price hc hq
    exact sbuy_invariant cfg _ bar.price bar.size hprop hfix hmin hlot hp h1 h2
  · exact ssell_invariant cfg st bar.price hc hq
  · exact sbuy_invariant cfg st bar.price bar.size hprop hfix hmin hlot hp hc hq
  · exact ⟨hc, hq⟩

lemma srun_invariant (cfg : SCfg)
    (hprop : 0 ≤ cfg.fee.propFee) (hfix : 0 ≤ cfg.fee.fixedFee)
    (hmin : 0 < cfg.minSize) (hlot : 0 < cfg.lot) :
    ∀ bars : List SBar, (∀ b ∈ bars, 0 < b.price) →
      ∀ st : SState, 0 ≤ st.cash → 0 ≤ st.pos →
        (∀ r ∈ srun cfg st bars, 0 ≤ r.cash ∧ 0 ≤ r.pos) ∧
        (srun cfg st bars).length = bars.length := by
  intro bars
  induction bars with
  | nil =>
    intro _ st _ _
    exact ⟨fun r hr => absurd hr (List.not_mem_nil r), rfl⟩
  | cons bar rest ih =>
    intro hp st hc hq
    have hpbar : 0 < bar.price := hp bar (List.mem_cons_self _ _)
    have hprest : ∀ b ∈ rest, 0 < b.price := fun b hb => hp b (List.mem_cons_of_mem _ hb)
    obtain ⟨h1, h2⟩ := sstep_invariant cfg st bar hprop hfix hmin hlot hpbar hc hq
    obtain ⟨ihmem, ihlen⟩ := ih hprest (sstep cfg st bar).1 h1 h2
    constructor
    · intro r hr
      rw [srun] at hr
      rcases List.mem_cons.mp hr with h | h
      · subst h; exact ⟨h1, h2⟩
      · exact ihmem r h
    · rw [srun]
      simp [ihlen]

/-- C2: in every long-only signal-driven run with a nonnegative fee
model, positive minimum size, lot and prices, the cash balance recorded
at every bar is nonnegative — unaffordable orders are clipped to the
largest affordable lot multiple or skipped with a SizingError flag — and
the run always completes, producing one record per bar. -/
theorem longonly_cash_never_negative (cfg : SCfg) (c0 : ℚ) (bars : List SBar)
    (hprop : 0 ≤ cfg.fee.propFee) (hfix : 0 ≤ cfg.fee.fixedFee)
    (hmin : 0 < cfg.minSize) (hlot : 0 < cfg.lot) (hc : 0 ≤ c0)
    (hp : ∀ b ∈ bars, 0 < b.price) :
    (∀ r ∈ srun cfg { cash := c0, pos := 0 } bars, 0 ≤ r.cash) ∧
    (srun cfg { cash := c0, pos := 0 } bars).length = bars.length := by
  obtain ⟨hmem, hlen⟩ :=
    srun_invariant cfg hprop hfix hmin hlot bars hp { cash := c0, pos := 0 } hc le_rfl
  exact ⟨fun r hr => (hmem r hr).1, hlen⟩

/-- C2 witness: a one-bar run with the SBIN script's fee and sizing
configuration completes with one record. -/
theorem longonly_cash_never_negative_witness :
    (srun ⟨⟨1/1000, 0⟩, 1, 1, false⟩ ⟨1000000, 0⟩
        [⟨100, true, false, SizeSpec.percent (3/4)⟩]).length =
      [(⟨100, true, false, SizeSpec.percent (3/4)⟩ : SBar)].length :=
  (longonly_cash_never_negative _ 1000000 _ (by norm_num) le_rfl (by norm_num)
    (by norm_num) (by norm_num)
    (by intro b hb; rw [List.mem_singleton] at hb; subst hb; norm_num)).2

/-- C7 counterexample: zero-fee dominance fails on the modelled engine.
With 100 cash, a 100%-of-equity entry at price 100 and `min_size = 1`,
the zero-fee run buys 1 unit and rides the price down to 1 (total return
−99%), while under a 20% proportional fee the same order is unaffordable
(5/6 of a unit is below `min_size`), is skipped with a SizingError
warning, and the run keeps its cash (total return 0). -/
theorem zero_fee_dominance_counterexample :
    totalReturn ⟨⟨0, 0⟩, 1, 1, false⟩ 100
        [⟨100, true, false, SizeSpec.percent 1⟩, ⟨1, false, false, SizeSpec.percent 1⟩] <
      totalReturn ⟨⟨1/5, 0⟩, 1, 1, false⟩ 100
        [⟨100, true, false, SizeSpec.percent 1⟩, ⟨1, false, false, SizeSpec.percent 1⟩] := by
  norm_num [totalReturn, srun, sstep, sbuy, sexec, ssell, desiredQty, roundLot,
    floorLot, maxAffordable, tradeFee, round_eq, List.getLast?]

/-- Modelled from the spec: a run whose executed order quantities are
fixed in advance — one signed `(quantity, fill price)` pair per fill —
applying the section 4.3 step 4 cash update
`cash -= quantity * price + fee` and the position update of step 5. -/
def frun (fc : FeeCfg) (st : SState) : List (ℚ × ℚ) → SState
  | [] => st
  | (q, p) :: rest =>
      frun fc { cash := st.cash - (q * p + tradeFee fc q p), pos := st.pos + q } rest

/-- Final mark-to-market value of a fixed-quantity run at the last
price. -/
def fixedFinalValue (fc : FeeCfg) (c0 : ℚ) (orders : List (ℚ × ℚ)) (pEnd : ℚ) : ℚ :=
  (frun fc { cash := c0, pos := 0 } orders).cash +
    (frun fc { cash := c0, pos := 0 } orders).pos * pEnd

/-- Total return of a fixed-quantity run. -/
def fixedTotalReturn (fc : FeeCfg) (c0 : ℚ) (orders : List (ℚ × ℚ)) (pEnd : ℚ) : ℚ :=
  fixedFinalValue fc c0 orders pEnd / c0 - 1

lemma tradeFee_nonneg (fc : FeeCfg) (q p : ℚ)
    (hf : 0 ≤ fc.propFee) (hF : 0 ≤ fc.fixedFee) : 0 ≤ tradeFee fc q p := by
  rw [tradeFee]
  have h1 : 0 ≤ fc.propFee * |q * p| := mul_nonneg hf (abs_nonneg (q * p))
  split_ifs <;> linarith

lemma frun_dominance (fc : FeeCfg) (hf : 0 ≤ fc.propFee) (hF : 0 ≤ fc.fixedFee) :
    ∀ (orders : List (ℚ × ℚ)) (st st' : SState),
      st.cash ≤ st'.cash → st.pos = st'.pos →
      (frun fc st orders).cash ≤ (frun ⟨0, 0⟩ st' orders).cash ∧
      (frun fc st orders).pos = (frun ⟨0, 0⟩ st' orders).pos := by
  intro orders
  induction orders with
  | nil => intro st st' h1 h2; exact ⟨h1, h2⟩
  | cons o rest ih =>
    intro st st' h1 h2
    obtain ⟨q, p⟩ := o
    rw [frun, frun]
    apply ih
    · have hfee0 : tradeFee ⟨0, 0⟩ q p = 0 := by
        rw [tradeFee]
        split_ifs <;> simp
      have hfee := tradeFee_nonneg fc q p hf hF
      simp only [hfee0]
      linarith
    · simp only [h2]

/-- C7 (amended): zero-fee dominance holds for runs whose executed order
quantities are fixed in advance (so the fee model cannot change which
orders execute or at what size): with the same signed fills, the total
return under any fee model with nonnegative proportional and fixed fees
never exceeds the zero-fee total return.  (As stated over the full
engine the claim is false: see the counterexample, where a fee-induced
SizingError skip leaves the fee-paying run ahead.) -/
theorem zero_fee_dominance_fixed (fc : FeeCfg) (c0 pEnd : ℚ) (orders : List (ℚ × ℚ))
    (hf : 0 ≤ fc.propFee) (hF : 0 ≤ fc.fixedFee) (hc : 0 < c0) :
    fixedTotalReturn fc c0 orders pEnd ≤ fixedTotalReturn ⟨0, 0⟩ c0 orders pEnd := by
  obtain ⟨h1, h2⟩ := frun_dominance fc hf hF orders
    { cash := c0, pos := 0 } { cash := c0, pos := 0 } le_rfl rfl
  rw [fixedTotalReturn, fixedTotalReturn, fixedFinalValue, fixedFinalValue]
  have h3 : (frun fc { cash := c0, pos := 0 } orders).cash +
      (frun fc { cash := c0, pos := 0 } orders).pos * pEnd ≤
      (frun ⟨0, 0⟩ { cash := c0, pos := 0 } orders).cash +
      (frun ⟨0, 0⟩ { cash := c0, pos := 0 } orders).pos * pEnd := by
    rw [h2]
    linarith
  have h4 := (div_le_div_iff_of_pos_right hc).mpr h3
  linarith

/-- C7 witness for the amended statement: one fill of 1 unit at price 50
marked at 60, under the SBIN script's 0.1% proportional fee. -/
theorem zero_fee_dominance_fixed_witness :
    fixedTotalReturn ⟨1/1000, 0⟩ 100 [(1, 50)] 60 ≤
      fixedTotalReturn ⟨0, 0⟩ 100 [(1, 50)] 60 :=
  zero_fee_dominance_fixed ⟨1/1000, 0⟩ 100 60 [(1, 50)] (by norm_num) le_rfl (by norm_num)

/-! ### Ledger / Fill Simulator, shared cash across instruments
(modelled from the spec, sections 4.2 and 4.3) —
`vbt.Portfolio.from_orders` with `cash_sharing=True` is not part of the
repository source. -/

/-- Shared-cash ledger state: one cash pool and one signed quantity per
instrument. -/
structure MState where
  cash : ℚ
  pos : List ℚ
deriving DecidableEq

/-- One input bar of a target-percent run: per-instrument close prices
and optional target fractions of group value (`none` models a NaN size,
i.e. no order, as the engine must treat undefined values). -/
structure MBar where
  price : List ℚ
  target : List (Option ℚ)
deriving DecidableEq

/-- Mark-to-market value of the positions at the given prices. -/
def mtmValue (pos price : List ℚ) : ℚ :=
  (List.zipWith (fun q p => q * p) pos price).sum

/-- Group value = shared cash + mark-to-market positions. -/
def groupValue (st : MState) (price : List ℚ) : ℚ :=
  st.cash + mtmValue st.pos price

/-- Modelled from the spec: the target-percent Order Sizer (section 4.2)
for instrument `i` — `((group value × fraction) − position value) /
price`, possibly negative to reach the target; `none` (NaN) asks for
nothing. -/
def targetDelta (st : MState) (bar : MBar) (i : ℕ) : ℚ :=
  match bar.target.getD i none with
  | none => 0
  | some f =>
      (groupValue st bar.price * f - st.pos.getD i 0 * bar.price.getD i 1) /
        bar.price.getD i 1

/-- Execute a fill of signed quantity `q` for instrument `i`, skipping
quantities below `min_size` with no state change (section 4.2). -/
def mput (cfg : SCfg) (st : MState) (p : ℚ) (i : ℕ) (q : ℚ) : MState :=
  if |q| < cfg.minSize then st
  else { cash := st.cash - (q * p + tradeFee cfg.fee q p),
         pos := st.pos.set i (st.pos.getD i 0 + q) }

/-- Modelled from the spec: size and execute one instrument's order
(sections 4.2 and 4.3): round the delta to the lot, clamp a sale to the
held quantity (long-only), reduce an unaffordable buy to the largest
affordable whole number of lots (never below zero), and skip anything
smaller than `min_size`. -/
def mexec (cfg : SCfg) (st : MState) (p : ℚ) (i : ℕ) (d : ℚ) : MState :=
  if max (roundLot cfg.lot d) (-(st.pos.getD i 0)) = 0 then st
  else if 0 < max (roundLot cfg.lot d) (-(st.pos.getD i 0)) ∧
      st.cash < max (roundLot cfg.lot d) (-(st.pos.getD i 0)) * p +
        tradeFee cfg.fee (max (roundLot cfg.lot d) (-(st.pos.getD i 0))) p
    then mput cfg st p i (max (floorLot cfg.lot (maxAffordable cfg.fee st.cash p)) 0)
    else mput cfg st p i (max (roundLot cfg.lot d) (-(st.pos.getD i 0)))

/-- Modelled from the spec: the deterministic call order inside one bar —
instruments whose sized delta is a sale first, then the buys
(section 4.3, step 1). -/
def callSeq (st : MState) (bar : MBar) : List ℕ :=
  (List.range bar.price.length).filter (fun i => targetDelta st bar i < 0) ++
    (List.range bar.price.length).filter (fun i => 0 ≤ targetDelta st bar i)

/-- Modelled from the spec: one bar of the shared-cash run — the orders
execute in call order, each sized against the state the earlier calls
left behind, so cash freed by a sale funds a same-bar buy. -/
def mstep (cfg : SCfg) (st : MState) (bar : MBar) : MState :=
  (callSeq st bar).foldl
    (fun s i => mexec cfg s (bar.price.getD i 1) i (targetDelta s bar i)) st

/-- One output record per bar of a shared-cash run. -/
structure MRec where
  cash : ℚ
  pos : List ℚ
  equity : ℚ
deriving DecidableEq

/-- Modelled from the spec: the bar-by-bar shared-cash run, recording at
every bar the group equity `cash + Σ position × close` (section 4.3,
step 6). -/
def mrun (cfg : SCfg) (st : MState) : List MBar → List MRec
  | [] => []
  | bar :: rest =>
    { cash := (mstep cfg st bar).cash, pos := (mstep cfg st bar).pos,
      equity := (mstep cfg st bar).cash + mtmValue (mstep cfg st bar).pos bar.price }
      :: mrun cfg (mstep cfg st bar) rest

lemma mrun_length (cfg : SCfg) :
    ∀ (bars : List MBar) (st : MState), (mrun cfg st bars).length = bars.length := by
  intro bars
  induction bars with
  | nil => intro st; rfl
  | cons bar rest ih =>
    intro st
    rw [mrun]
    simp [ih]

/-- C1: accounting identity — pairing each record of a shared-cash run
with its bar, the recorded equity always equals the cash balance plus
the sum over instruments of position quantity times that bar's close
price (exactly, over ℚ), and the run records one equity value per bar:
the equity series is the per-bar image of cash and positions, never an
independent series. -/
theorem accounting_identity (cfg : SCfg) (st : MState) (bars : List MBar)
    (pr : MRec × MBar) (hpr : pr ∈ (mrun cfg st bars).zip bars) :
    pr.1.equity = pr.1.cash + mtmValue pr.1.pos pr.2.price ∧
    (mrun cfg st bars).length = bars.length := by
  refine ⟨?_, mrun_length cfg bars st⟩
  induction bars generalizing st with
  | nil => cases hpr
  | cons bar rest ih =>
    rw [mrun, List.zip_cons_cons] at hpr
    rcases List.mem_cons.mp hpr with h | h
    · subst h; rfl
    · exact ih (mstep cfg st bar) h

/-- C1 witness: a one-bar, one-instrument shared-cash run buying 75% of
group value at price 100. -/
theorem accounting_identity_witness :
    ((⟨0, [1], 100⟩ : MRec), (⟨[100], [some (3/4)]⟩ : MBar)).1.equity =
      ((⟨0, [1], 100⟩ : MRec), (⟨[100], [some (3/4)]⟩ : MBar)).1.cash +
        mtmValue ((⟨0, [1], 100⟩ : MRec), (⟨[100], [some (3/4)]⟩ : MBar)).1.pos
          ((⟨0, [1], 100⟩ : MRec), (⟨[100], [some (3/4)]⟩ : MBar)).2.price ∧
    (mrun ⟨⟨0, 0⟩, 1, 1, false⟩ ⟨100, [0]⟩ [⟨[100], [some (3/4)]⟩]).length =
      [(⟨[100], [some (3/4)]⟩ : MBar)].length := by
  apply accounting_identity
  have hrun : mrun (⟨⟨0, 0⟩, 1, 1, false⟩ : SCfg) ⟨100, [0]⟩ [⟨[100], [some (3/4)]⟩] =
      [⟨0, [1], 100⟩] := by
    norm_num [mrun, mstep, callSeq, targetDelta, groupValue, mtmValue, mexec, mput,
      roundLot, floorLot, maxAffordable, tradeFee, round_eq, List.range_succ]
  rw [hrun]
  simp

/-! ### Buy-and-hold size table (buy_hold_75_25_backtest.py,
lines 65-66) and the frame property of the resulting run -/

/-- `size_df`: NaN everywhere, the first row set to the target weights
(`size_df.iloc[0] = [WEIGHTS[sym] for sym in SYMBOLS]`). -/
def sizeRow (t : ℕ) (w1 w2 : ℚ) : List (Option ℚ) :=
  if t = 0 then [some w1, some w2] else [none, none]

/-- The bars of the buy-and-hold run: close prices with the `size_df`
row of each timestamp, starting at index `t`. -/
def buyHoldBarsGo (w1 w2 : ℚ) (t : ℕ) : List (List ℚ) → List MBar
  | [] => []
  | p :: rest =>
      { price := p, target := sizeRow t w1 w2 } :: buyHoldBarsGo w1 w2 (t + 1) rest

/-- The bars of the buy-and-hold run over a full price history. -/
def buyHoldBars (prices : List (List ℚ)) (w1 w2 : ℚ) : List MBar :=
  buyHoldBarsGo w1 w2 0 prices

lemma mem_set_cases (v x : ℚ) :
    ∀ (l : List ℚ) (i : ℕ), x ∈ l.set i v → x = v ∨ x ∈ l := by
  intro l
  induction l with
  | nil => intro i h; cases h
  | cons a l ih =>
    intro i h
    cases i with
    | zero =>
      rcases List.mem_cons.mp h with h1 | h1
      · exact Or.inl h1
      · exact Or.inr (List.mem_cons_of_mem _ h1)
    | succ n =>
      rcases List.mem_cons.mp h with h1 | h1
      · exact Or.inr (by rw [h1]; exact List.mem_cons_self _ _)
      · rcases ih n h1 with h2 | h2
        · exact Or.inl h2
        · exact Or.inr (List.mem_cons_of_mem _ h2)

lemma getD_nonneg (l : List ℚ) (hl : ∀ x ∈ l, 0 ≤ x) : ∀ i : ℕ, 0 ≤ l.getD i 0 := by
  induction l with
  | nil => intro i; simp [List.getD]
  | cons a l ih =>
    intro i
    cases i with
    | zero => exact hl a (List.mem_cons_self _ _)
    | succ n =>
      simp only [List.getD_cons_succ]
      exact ih (fun x hx => hl x (List.mem_cons_of_mem _ hx)) n

lemma roundLot_zero (lot : ℚ) : roundLot lot 0 = 0 := by
  simp [roundLot]

/-- A zero-delta order is a no-op for a long-only (nonnegative) book. -/
lemma mexec_zero (cfg : SCfg) (st : MState) (p : ℚ) (i : ℕ)
    (hpos : ∀ x ∈ st.pos, 0 ≤ x) : mexec cfg st p i 0 = st := by
  have h1 : max (roundLot cfg.lot 0) (-(st.pos.getD i 0)) = 0 := by
    rw [roundLot_zero]
    have := getD_nonneg st.pos hpos i
    simp only [max_eq_left_iff]
    linarith
  rw [mexec, if_pos h1]

/-- Every executed fill keeps the book long-only. -/
lemma mexec_nonneg (cfg : SCfg) (st : MState) (p : ℚ) (i : ℕ) (d : ℚ)
    (hpos : ∀ x ∈ st.pos, 0 ≤ x) : ∀ x ∈ (mexec cfg st p i d).pos, 0 ≤ x := by
  have hgd := getD_nonneg st.pos hpos i
  rw [mexec]
  split_ifs with h1 h2
  · exact hpos
  · -- clipped buy: quantity is max(…, 0) ≥ 0
    rw [mput]
    split_ifs with h3
    · exact hpos
    · intro x hx
      rcases mem_set_cases _ x st.pos i hx with h4 | h4
      · rw [h4]
        have : (0 : ℚ) ≤ max (floorLot cfg.lot (maxAffordable cfg.fee st.cash p)) 0 :=
          le_max_right _ _
        linarith
      · exact hpos x h4
  · -- unclipped: quantity is at least the negated held amount
    rw [mput]
    split_ifs with h3
    · exact hpos
    · intro x hx
      rcases mem_set_cases _ x st.pos i hx with h4 | h4
      · rw [h4]
        have : -(st.pos.getD i 0) ≤ max (roundLot cfg.lot d) (-(st.pos.getD i 0)) :=
          le_max_right _ _
        linarith
      · exact hpos x h4

lemma mstep_nonneg (cfg : SCfg) (st : MState) (bar : MBar)
    (hpos : ∀ x ∈ st.pos, 0 ≤ x) : ∀ x ∈ (mstep cfg st bar).pos, 0 ≤ x := by
  rw [mstep]
  generalize callSeq st bar = l
  induction l generalizing st with
  | nil => exact hpos
  | cons i rest ih =>
    rw [List.foldl_cons]
    exact ih _ (mexec_nonneg cfg st (bar.price.getD i 1) i (targetDelta st bar i) hpos)

/-- A bar whose whole size row is NaN leaves the state untouched. -/
lemma mstep_no_order (cfg : SCfg) (st : MState) (bar : MBar)
    (ht : ∀ i, bar.target.getD i none = none)
    (hpos : ∀ x ∈ st.pos, 0 ≤ x) : mstep cfg st bar = st := by
  rw [mstep]
  generalize callSeq st bar = l
  induction l generalizing st with
  | nil => rfl
  | cons i rest ih =>
    rw [List.foldl_cons]
    have hdelta : targetDelta st bar i = 0 := by
      rw [targetDelta, ht i]
    rw [hdelta, mexec_zero cfg st _ i hpos]
    exact ih st hpos

lemma buyHoldBarsGo_all_none (w1 w2 : ℚ) :
    ∀ (prices : List (List ℚ)) (t : ℕ), 1 ≤ t →
      ∀ b ∈ buyHoldBarsGo w1 w2 t prices, ∀ i, b.target.getD i none = none := by
  intro prices
  induction prices with
  | nil => intro t _ b hb; cases hb
  | cons p rest ih =>
    intro t ht b hb
    rcases List.mem_cons.mp hb with h | h
    · subst h
      intro i
      show (sizeRow t w1 w2).getD i none = none
      rw [sizeRow, if_neg (by omega)]
      match i with
      | 0 => rfl
      | 1 => rfl
      | (n+2) => rfl
    · exact ih (t + 1) (by omega) b h

lemma mrun_const_pos (cfg : SCfg) :
    ∀ bars : List MBar,
      (∀ b ∈ bars, ∀ i, b.target.getD i none = none) →
      ∀ s : MState, (∀ x ∈ s.pos, 0 ≤ x) →
        ∀ r ∈ mrun cfg s bars, r.pos = s.pos := by
  intro bars
  induction bars with
  | nil => intro _ s _ r hr; cases hr
  | cons bar rest ih =>
    intro hb s hs r hr
    have hid : mstep cfg s bar = s :=
      mstep_no_order cfg s bar (hb bar (List.mem_cons_self _ _)) hs
    rw [mrun] at hr
    rcases List.mem_cons.mp hr with h | h
    · subst h
      show (mstep cfg s bar).pos = s.pos
      rw [hid]
    · rw [hid] at h
      exact ih (fun b hb2 => hb b (List.mem_cons_of_mem _ hb2)) s hs r h

/-- C10: the buy-and-hold size table supplies a target-percent size only
on the first bar and is NaN (no order) at every later timestamp, so in
the modelled shared-cash run over those bars the recorded position
quantities of the instruments are identical across all bars of the run —
orders are placed only at the first bar. -/
theorem buy_hold_no_later_orders (cfg : SCfg) (c0 w1 w2 : ℚ) (prices : List (List ℚ)) :
    (∀ t, 1 ≤ t → sizeRow t w1 w2 = [none, none]) ∧
    (∀ r ∈ mrun cfg ⟨c0, [0, 0]⟩ (buyHoldBars prices w1 w2),
      ∀ r2 ∈ mrun cfg ⟨c0, [0, 0]⟩ (buyHoldBars prices w1 w2), r.pos = r2.pos) := by
  constructor
  · intro t ht
    rw [sizeRow, if_neg (by omega)]
  · cases prices with
    | nil =>
      intro r hr
      cases hr
    | cons p rest =>
      have hzero : ∀ x ∈ ([0, 0] : List ℚ), 0 ≤ x := by
        intro x hx
        rcases List.mem_cons.mp hx with h | h
        · rw [h]
        · rcases List.mem_cons.mp h with h2 | h2
          · rw [h2]
          · cases h2
      have hs1 : ∀ x ∈ (mstep cfg ⟨c0, [0, 0]⟩
          { price := p, target := sizeRow 0 w1 w2 }).pos, 0 ≤ x :=
        mstep_nonneg cfg ⟨c0, [0, 0]⟩ _ hzero
      have key : ∀ r ∈ mrun cfg ⟨c0, [0, 0]⟩ (buyHoldBars (p :: rest) w1 w2),
          r.pos = (mstep cfg ⟨c0, [0, 0]⟩ { price := p, target := sizeRow 0 w1 w2 }).pos := by
        intro r hr
        rw [buyHoldBars, buyHoldBarsGo, mrun] at hr
        rcases List.mem_cons.mp hr with h | h
        · subst h; rfl
        · exact mrun_const_pos cfg (buyHoldBarsGo w1 w2 1 rest)
            (buyHoldBarsGo_all_none w1 w2 rest 1 le_rfl) _ hs1 r h
      intro r hr r2 hr2
      rw [key r hr, key r2 hr2]

/-- C10 witness: the size row at timestamp 1 is all NaN, and in the
concrete one-bar run the recorded positions coincide. -/
theorem buy_hold_no_later_orders_witness :
    sizeRow 1 (3/5) (2/5) = [none, none] ∧
    ((⟨0, [1, 0], 100⟩ : MRec)).pos = ((⟨0, [1, 0], 100⟩ : MRec)).pos := by
  have hrun : mrun (⟨⟨0, 0⟩, 1, 1, false⟩ : SCfg) ⟨100, [0, 0]⟩
      (buyHoldBars [[100, 50]] (3/5) (2/5)) = [⟨0, [1, 0], 100⟩] := by
    norm_num [buyHoldBars, buyHoldBarsGo, sizeRow, mrun, mstep, callSeq, targetDelta,
      groupValue, mtmValue, mexec, mput, roundLot, floorLot, maxAffordable, tradeFee,
      round_eq, List.range_succ]
  refine ⟨(buy_hold_no_later_orders ⟨⟨0, 0⟩, 1, 1, false⟩ 100 (3/5) (2/5) [[100, 50]]).1
      1 le_rfl, ?_⟩
  exact (buy_hold_no_later_orders ⟨⟨0, 0⟩, 1, 1, false⟩ 100 (3/5) (2/5) [[100, 50]]).2
    ⟨0, [1, 0], 100⟩ (by rw [hrun]; exact List.mem_singleton.mpr rfl)
    ⟨0, [1, 0], 100⟩ (by rw [hrun]; exact List.mem_singleton.mpr rfl)

/-! ### Walk-Forward Optimizer (modelled from the spec, section 4.5) —
no walk-forward script ships under src/. -/

/-- Modelled from the spec: the in-sample slice of a walk-forward window
— the bars with indices `offset ≤ t < offset + train`, all strictly
before the test-window start `offset + train`. -/
def trainSlice (data : ℕ → ℚ) (offset train : ℕ) : List ℚ :=
  (List.range train).map fun k => data (offset + k)

/-- Modelled from the spec: pick from the grid the point with the
highest in-sample score; grid points whose score is `none` (a NaN
Sharpe) are excluded from selection; the earliest maximum wins. -/
def selectBest {P : Type} (score : P → List ℚ → Option ℚ) (grid : List P)
    (slice : List ℚ) : Option P :=
  (grid.foldl
    (fun best p =>
      match score p slice, best with
      | none, b => b
      | some s, none => some (p, s)
      | some s, some (bp, bs) => if bs < s then some (p, s) else some (bp, bs))
    none).map Prod.fst

/-- Modelled from the spec: the parameter combination chosen for the
window starting at `offset` with train length `train`, scored on the
in-sample slice only — the out-of-sample slice `[offset + train,
offset + train + test)` plays no part. -/
def selectForWindow {P : Type} (score : P → List ℚ → Option ℚ) (grid : List P)
    (data : ℕ → ℚ) (offset train : ℕ) : Option P :=
  selectBest score grid (trainSlice data offset train)

/-- C3: walk-forward no-lookahead — for every scoring function, grid and
window, the chosen parameter combination depends only on bars strictly
before the test-window start: two histories that agree on all indices
below `offset + train` yield the same selection, however they differ on
the test slice. -/
theorem walkforward_no_lookahead {P : Type} (score : P → List ℚ → Option ℚ)
    (grid : List P) (offset train : ℕ) (d1 d2 : ℕ → ℚ)
    (hagree : ∀ t, t < offset + train → d1 t = d2 t) :
    selectForWindow score grid d1 offset train =
      selectForWindow score grid d2 offset train := by
  have hslice : trainSlice d1 offset train = trainSlice d2 offset train := by
    rw [trainSlice, trainSlice]
    apply List.map_congr_left
    intro k hk
    exact hagree (offset + k) (by have := List.mem_range.mp hk; omega)
  rw [selectForWindow, selectForWindow, hslice]

/-- C3 witness: two histories agreeing on the two train bars but
differing on the test slice select the same grid point. -/
theorem walkforward_no_lookahead_witness :
    selectForWindow (fun (p : ℕ) s => some (s.sum * (p : ℚ))) [1, 2]
        (fun t => if t < 2 then 1 else 5) 0 2 =
      selectForWindow (fun (p : ℕ) s => some (s.sum * (p : ℚ))) [1, 2]
        (fun t => if t < 2 then 1 else 7) 0 2 :=
  walkforward_no_lookahead _ [1, 2] 0 2 _ _
    (fun t ht => by simp only [if_pos (show t < 2 by omega)])

end BT
